import Mathlib

/-!
# Verification of the `sapi` problem model and submission layer

This file gives a shallow embedding of the Go package `sapi` (a client
library for Ising/QUBO solvers) and proves properties of its problem
data model (`Canonicalize`, `ToIsing`, `ToQubo`, `energyOffset`,
`couplerMap`), of its synchronous solve error path (`SolveIsing` /
`newErrorf`), and of its multi-job wait (`AwaitCompletion`).

Modelling conventions:
* Go `int` becomes `Int`; Go `float64` coefficient arithmetic becomes
  exact `Rat` arithmetic (the operations involved are sums and scaling
  by powers of two).
* `sort.Slice` (an unspecified comparison sort keyed on `(I, J)`) is
  embedded as `List.insertionSort` over the same key order; theorem
  `mergeDups_eq_of_perm` below shows the output of `Canonicalize` is the
  same for every correct comparison sort, so the choice is irrelevant.
* Go slices are values here; copies made by `range` loops and `make`
  become ordinary functional data flow.
-/

namespace Sapi

/-- A single coefficient of a problem: a linear (field) term when
`I = J`, a quadratic (coupler) term otherwise.  Mirrors the Go struct
`ProblemEntry` of `problem.go`. -/
@[ext]
structure ProblemEntry where
  I : Int
  J : Int
  Value : Rat
deriving DecidableEq

/-- A problem is an ordered list of coefficients (Go `type Problem
[]ProblemEntry`). -/
abbrev Problem := List ProblemEntry

/-- The first phase of `Canonicalize`: the body of its `range` loop,
which swaps `I` and `J` on the loop-local copy `pe` when `I > J`. -/
def normEntry (pe : ProblemEntry) : ProblemEntry :=
  if pe.I > pe.J then { I := pe.J, J := pe.I, Value := pe.Value } else pe

/-- The comparison used by `Canonicalize`'s `sort.Slice` call: strictly
less on `I`, then at most on `J` (the reflexive closure of the Go
`less` function, i.e. `¬ less b a`). -/
def entryLE (a b : ProblemEntry) : Prop :=
  a.I < b.I ∨ (a.I = b.I ∧ a.J ≤ b.J)

instance : DecidableRel entryLE := fun a b => by
  unfold entryLE; infer_instance

instance : IsTotal ProblemEntry entryLE :=
  ⟨fun a b => by unfold entryLE; omega⟩

instance : IsTrans ProblemEntry entryLE :=
  ⟨fun a b c hab hbc => by unfold entryLE at *; omega⟩

/-- Strict lexicographic order on the `(I, J)` key; the order in which
a canonicalized problem's entries appear. -/
def keyLt (a b : ProblemEntry) : Prop :=
  a.I < b.I ∨ (a.I = b.I ∧ a.J < b.J)

/-- The merge loop of `Canonicalize`, tracking the last entry appended
to `p2` as `cur`: a successor with the same `(I, J)` key has its value
added to `cur`, any other successor starts a fresh entry. -/
def mergeDupsAux (cur : ProblemEntry) : Problem → Problem
  | [] => [cur]
  | pe :: rest =>
      if cur.I = pe.I ∧ cur.J = pe.J then
        mergeDupsAux { cur with Value := cur.Value + pe.Value } rest
      else
        cur :: mergeDupsAux pe rest

/-- The merge phase of `Canonicalize`: collapse adjacent entries with
equal `(I, J)` keys, summing their values. -/
def mergeDups : Problem → Problem
  | [] => []
  | pe :: rest => mergeDupsAux pe rest

/-- `Canonicalize` from `convenience.go`: orient every entry so that
`I ≤ J`, sort by `I` then `J`, and merge duplicate keys by summing
values. -/
def Canonicalize (p : Problem) : Problem :=
  mergeDups (List.insertionSort entryLE (p.map normEntry))

/-- Sum of the `Value` fields of a list of entries (the running `v +=
elt.Value` accumulations in the Go code). -/
def sumV (l : Problem) : Rat :=
  (l.map ProblemEntry.Value).sum

/-- The list `couplerMap(p)[i]` built by `couplerMap` in
`convenience.go`: every coupler (`I ≠ J`) entry touching spin `i`, in
input order, with the entries reached through their `J` side stored
swapped (`J --> I`). -/
def couplerMap (p : Problem) (i : Int) : Problem :=
  (p.filter fun pe =>
      decide (pe.I ≠ pe.J) && (decide (pe.I = i) || decide (pe.J = i))).map
    fun pe => if pe.I = i then pe else { I := pe.J, J := pe.I, Value := pe.Value }

/-- Total coupler weight seen by spin `i`: the sum the conversion loops
compute by iterating over `cMap[pe.I]`. -/
def couplerSum (p : Problem) (i : Int) : Rat :=
  sumV (couplerMap p i)

/-- `energyOffset` from `convenience.go`: half the total field weight
plus a quarter of the total coupler weight (the Go loop accumulates the
two totals in one pass). -/
def energyOffset (p : Problem) : Rat :=
  let he := sumV (p.filter fun pe => decide (pe.I = pe.J))
  let je := sumV (p.filter fun pe => decide (pe.I ≠ pe.J))
  he / 2 + je / 4

/-- The per-entry transformation of `ToIsing`'s loop: a field weight
becomes `Value/2 + (coupler sum at I)/4`, a coupler strength becomes
`Value/4`. -/
def isingEntry (cp : Problem) (pe : ProblemEntry) : ProblemEntry :=
  if pe.I = pe.J then
    { pe with Value := pe.Value / 2 + couplerSum cp pe.I / 4 }
  else
    { pe with Value := pe.Value / 4 }

/-- `ToIsing` from `convenience.go`: canonicalize, transform each entry
via `isingEntry`, and return the energy offset of the canonicalized
input. -/
def ToIsing (p : Problem) : Problem × Rat :=
  let cp := Canonicalize p
  (cp.map (isingEntry cp), energyOffset cp)

/-- The per-entry transformation of `ToQubo`'s loop: a field weight
becomes `Value*2 − (coupler sum at I)*2`, a coupler strength becomes
`Value*4`. -/
def quboEntry (cp : Problem) (pe : ProblemEntry) : ProblemEntry :=
  if pe.I = pe.J then
    { pe with Value := pe.Value * 2 - couplerSum cp pe.I * 2 }
  else
    { pe with Value := pe.Value * 4 }

/-- `ToQubo` from `convenience.go`: canonicalize, transform each entry
via `quboEntry`, and return the negated energy offset of the produced
QUBO problem. -/
def ToQubo (p : Problem) : Problem × Rat :=
  let cp := Canonicalize p
  let qp := cp.map (quboEntry cp)
  (qp, -energyOffset qp)

/-- A problem is canonical when its entries are strictly sorted by
`(I, J)` and every entry has `I ≤ J`. -/
def IsCanonical (p : Problem) : Prop :=
  List.Pairwise keyLt p ∧ ∀ pe ∈ p, pe.I ≤ pe.J

/-- Key-equality test against a reference entry `c`. -/
def eqKey (c y : ProblemEntry) : Bool :=
  decide (c.I = y.I) && decide (c.J = y.J)

/-- The maximal leading run of entries key-equal to `c`. -/
def runOf (c : ProblemEntry) (t : Problem) : Problem :=
  t.takeWhile (eqKey c)

/-- What remains of `t` after its leading key-`c` run. -/
def restOf (c : ProblemEntry) (t : Problem) : Problem :=
  t.dropWhile (eqKey c)

/-- The unordered key of an entry: `(I, J)` put into `I ≤ J` order. -/
def normKey (pe : ProblemEntry) : Int × Int :=
  if pe.I > pe.J then (pe.J, pe.I) else (pe.I, pe.J)

/-- The total weight an input problem assigns to the unordered key `k`,
over both orientations. -/
def keySum (p : Problem) (k : Int × Int) : Rat :=
  sumV (p.filter fun pe => decide (normKey pe = k))

/-- State-level embedding of `Canonicalize` for the frame claim:
`Canonicalize` reads its receiver only through the copying `range`
loop (the orientation swap happens on the loop-local copy `pe`), the
sort is applied to the fresh slice `p1`, and the merge appends to the
fresh slice `p2`.  `canonicalizeMem` makes that explicit by threading
the caller's slice through the computation and returning its final
contents alongside the result. -/
def canonicalizeMem (p : Problem) : Problem × Problem :=
  let p1 := p.map normEntry
  let p1sorted := List.insertionSort entryLE p1
  let p2 := mergeDups p1sorted
  (p, p2)

/-- Modelled from the spec: the energy of a problem under an assignment
(the spec's `energy_qubo(x)` over `{0,1}` values, `energy_ising(s)` over
`{−1,+1}` values).  A diagonal entry contributes `Value * a I`, a
coupler contributes `Value * a I * a J`.  The source delegates energy
computation to the backend; the spec's invariant refers to these
standard quadratic forms. -/
def energy (p : Problem) (a : Int → Rat) : Rat :=
  (p.map fun pe =>
    if pe.I = pe.J then pe.Value * a pe.I else pe.Value * a pe.I * a pe.J).sum

/-- An operand handed to the Go `fmt` package by this library: the call
sites of `newErrorf` pass strings, and — because `newErrorf` forwards
its variadic slice unexpanded — whole slices of strings. -/
inductive GoValue where
  | str : String → GoValue
  | strSlice : List String → GoValue
deriving DecidableEq

/-- How Go `fmt` renders an operand for the `%s` verb: a string as
itself, a slice bracketed with space-separated elements. -/
def fmtOperand : GoValue → String
  | GoValue.str s => s
  | GoValue.strSlice l => "[" ++ String.intercalate " " l ++ "]"

/-- The fragment of Go `fmt.Sprintf` exercised by this library: literal
characters are copied, each `%s` consumes one operand, missing operands
yield a `%!s(MISSING)` marker and surplus operands an `%!(EXTRA ...)`
marker (the marker text is abbreviated; no claim depends on it). -/
def sprintfAux : List Char → List GoValue → String
  | [], [] => ""
  | [], _ :: _ => "%!(EXTRA)"
  | '%' :: 's' :: cs, v :: vs => fmtOperand v ++ sprintfAux cs vs
  | '%' :: 's' :: cs, [] => "%!s(MISSING)" ++ sprintfAux cs []
  | c :: cs, vs => String.singleton c ++ sprintfAux cs vs

def sprintf (format : String) (a : List GoValue) : String :=
  sprintfAux format.data a

/-- The Go `Error` struct of `sapi.go`: a numeric SAPI code and its
textual representation. -/
structure Error where
  N : Int
  S : String
deriving DecidableEq

/-- `newErrorf` from `sapi.go`.  The Go body is
`fmt.Sprintf(format, a)` — the variadic slice `a` is passed without
being expanded (`a`, not `a...`), so the format's single operand is the
slice itself. -/
def newErrorf (c : Int) (format : String) (a : List String) : Error :=
  { N := c, S := sprintf format [GoValue.strSlice a] }

/-- Modelled from the spec: the C header's success status code
`SAPI_OK` (the zero of the status enum); the header itself is outside
the repository. -/
def sapiOK : Int := 0

/-- The timing block of an `IsingResult` (durations as integer
nanosecond counts). -/
structure Timing where
  QpuAccessTime : Int
  QpuProgrammingTime : Int
  QpuSamplingTime : Int
  QpuAnnealTimePerSample : Int
  QpuReadoutTimePerSample : Int
  QpuDelayTimePerSample : Int
  TotalPostprocessingTime : Int
  PostprocessingOverheadTime : Int
deriving DecidableEq

/-- The Go `IsingResult` of `solver.go`: solutions, energies,
occurrence tallies, and timing. -/
structure IsingResult where
  Solutions : List (List Int)
  Energies : List Rat
  Occurrences : List Int
  Timing : Timing
deriving DecidableEq

/-- The zero value `IsingResult{}` returned by the Go solve calls on
failure. -/
def zeroIsingResult : IsingResult :=
  { Solutions := [], Energies := [], Occurrences := [],
    Timing := ⟨0, 0, 0, 0, 0, 0, 0, 0⟩ }

/-- What one call of the opaque backend routine `sapi_solveIsing` /
`sapi_solveQubo` produces: a status code, the contents of the
error-message buffer, and (meaningful only on success) the solve result
already in Go form — `convertIsingResultToGo` is pure marshalling whose
detail no claim depends on. -/
structure SolveResponse where
  ret : Int
  errMsg : String
  result : IsingResult

/-- `SolveIsing` from `solver.go`: invoke the backend; on a non-`SAPI_OK`
status return the zero `IsingResult` and the error built by
`newErrorf(ret, "%s", message)`; otherwise the converted result. -/
def SolveIsing (backend : Problem → SolveResponse) (p : Problem) :
    IsingResult × Option Error :=
  let resp := backend p
  if resp.ret ≠ sapiOK then
    (zeroIsingResult, some (newErrorf resp.ret "%s" [resp.errMsg]))
  else
    (resp.result, none)

/-- `SolveQubo` from `solver.go`: same shape as `SolveIsing` over the
backend's QUBO solve routine. -/
def SolveQubo (backend : Problem → SolveResponse) (p : Problem) :
    IsingResult × Option Error :=
  let resp := backend p
  if resp.ret ≠ sapiOK then
    (zeroIsingResult, some (newErrorf resp.ret "%s" [resp.errMsg]))
  else
    (resp.result, none)

/-- A `SubmittedProblem` from `async.go`: it wraps only the opaque
backend-side handle. -/
structure SubmittedProblem (H : Type) where
  cSp : H

/-- `timeout.Seconds()` of a Go `time.Duration` (an integer nanosecond
count), as an exact rational. -/
def durationSeconds (t : Int) : Rat :=
  (t : Rat) / 1000000000

/-- `SubmittedProblem.AwaitCompletion` from `async.go`: pass a
one-element handle array, count 1 and `minDone` 1 to the backend's
`sapi_awaitCompletion` — abstracted as `wait` over the handle list, the
minimum-done count, and the timeout in seconds — and report whether the
returned C int is nonzero. -/
def awaitCompletionSingle {H : Type} (wait : List H → Int → Rat → Int)
    (sp : SubmittedProblem H) (timeout : Int) : Bool :=
  decide (wait [sp.cSp] 1 (durationSeconds timeout) ≠ 0)

/-- Package-level `AwaitCompletion` from `async.go`: build the handle
array `cSps` from the jobs, then call the backend with `&cSps[0]`,
the job count, `minDone` and the timeout in seconds.  Evaluating
`&cSps[0]` of an empty Go slice panics (index out of range) before the
backend is invoked; the panic is modelled as `none`. -/
def AwaitCompletion {H : Type} (wait : List H → Int → Rat → Int)
    (sps : List (SubmittedProblem H)) (minDone : Int) (timeout : Int) :
    Option Bool :=
  let cSps := sps.map fun s => s.cSp
  match cSps with
  | [] => none
  | _ :: _ => some (decide (wait cSps minDone (durationSeconds timeout) ≠ 0))

/-! ## Order facts about the entry comparisons -/

theorem entryLE_of_keyLt {a b : ProblemEntry} (h : keyLt a b) : entryLE a b := by
  unfold keyLt at h; unfold entryLE; omega

theorem keyLt_of_entryLE_of_ne {a b : ProblemEntry} (h : entryLE a b)
    (hne : ¬(a.I = b.I ∧ a.J = b.J)) : keyLt a b := by
  unfold entryLE at h; unfold keyLt; omega

theorem keyLt_not_keyEq {a b : ProblemEntry} (h : keyLt a b) :
    ¬(a.I = b.I ∧ a.J = b.J) := by
  unfold keyLt at h; omega

theorem keyLt_trans_entryLE {a b c : ProblemEntry} (h₁ : keyLt a b)
    (h₂ : entryLE b c) : keyLt a c := by
  unfold keyLt at *; unfold entryLE at h₂; omega

theorem entryLE_antisymm_key {a b : ProblemEntry} (h₁ : entryLE a b)
    (h₂ : entryLE b a) : a.I = b.I ∧ a.J = b.J := by
  unfold entryLE at *; omega

theorem keyLt_congr {a b a' b' : ProblemEntry} (hI : a'.I = a.I) (hJ : a'.J = a.J)
    (hI' : b'.I = b.I) (hJ' : b'.J = b.J) (h : keyLt a b) : keyLt a' b' := by
  unfold keyLt at *; omega

theorem entryLE_congr {a b a' b' : ProblemEntry} (hI : a'.I = a.I) (hJ : a'.J = a.J)
    (hI' : b'.I = b.I) (hJ' : b'.J = b.J) (h : entryLE a b) : entryLE a' b' := by
  unfold entryLE at *; omega

/-! ## Structure of the merge phase -/

theorem mergeDupsAux_key_mem {x : ProblemEntry} :
    ∀ {l : Problem} {cur : ProblemEntry}, x ∈ mergeDupsAux cur l →
      ∃ y ∈ cur :: l, x.I = y.I ∧ x.J = y.J := by
  intro l
  induction l with
  | nil =>
      intro cur hx
      simp only [mergeDupsAux, List.mem_singleton] at hx
      exact ⟨cur, by simp [hx]⟩
  | cons pe rest ih =>
      intro cur hx
      simp only [mergeDupsAux] at hx
      split at hx
      · rcases ih hx with ⟨y, hy, hkey⟩
        rcases List.mem_cons.mp hy with hy | hy
        · exact ⟨cur, by simp, by simp [hy] at hkey; exact hkey⟩
        · exact ⟨y, by simp [hy], hkey⟩
      · rcases List.mem_cons.mp hx with hx | hx
        · exact ⟨cur, by simp, by simp [hx]⟩
        · rcases ih hx with ⟨y, hy, hkey⟩
          exact ⟨y, by simpa using Or.inr (List.mem_cons.mp hy), hkey⟩

theorem mergeDupsAux_pairwise :
    ∀ {l : Problem} {cur : ProblemEntry}, List.Pairwise entryLE (cur :: l) →
      List.Pairwise keyLt (mergeDupsAux cur l) := by
  intro l
  induction l with
  | nil => intro cur _; simp [mergeDupsAux]
  | cons pe rest ih =>
      intro cur hp
      rcases List.pairwise_cons.mp hp with ⟨hcur, hrest⟩
      rcases List.pairwise_cons.mp hrest with ⟨hpe, htail⟩
      simp only [mergeDupsAux]
      split
      · rename_i hkey
        refine ih (List.pairwise_cons.mpr ⟨?_, htail⟩)
        intro y hy
        exact entryLE_congr (by simp) (by simp) rfl rfl
          (entryLE_congr hkey.1 hkey.2 rfl rfl (hpe y hy))
      · rename_i hkey
        have hlt : keyLt cur pe := keyLt_of_entryLE_of_ne (hcur pe (by simp)) hkey
        refine List.pairwise_cons.mpr ⟨?_, ih hrest⟩
        intro x hx
        rcases mergeDupsAux_key_mem hx with ⟨y, hy, hxy⟩
        rcases List.mem_cons.mp hy with hy | hy
        · exact keyLt_congr rfl rfl (hy ▸ hxy.1) (hy ▸ hxy.2) hlt
        · exact keyLt_congr rfl rfl hxy.1 hxy.2
            (keyLt_trans_entryLE hlt (hpe y hy))

theorem mergeDups_pairwise {l : Problem} (h : List.Pairwise entryLE l) :
    List.Pairwise keyLt (mergeDups l) := by
  cases l with
  | nil => simp [mergeDups]
  | cons pe rest => exact mergeDupsAux_pairwise h

theorem mergeDups_key_mem {l : Problem} {x : ProblemEntry} (hx : x ∈ mergeDups l) :
    ∃ y ∈ l, x.I = y.I ∧ x.J = y.J := by
  cases l with
  | nil => simp [mergeDups] at hx
  | cons pe rest => exact mergeDupsAux_key_mem hx

theorem mergeDupsAux_of_pairwise_keyLt :
    ∀ {l : Problem} {cur : ProblemEntry}, List.Pairwise keyLt (cur :: l) →
      mergeDupsAux cur l = cur :: l := by
  intro l
  induction l with
  | nil => intro cur _; simp [mergeDupsAux]
  | cons pe rest ih =>
      intro cur hp
      rcases List.pairwise_cons.mp hp with ⟨hcur, hrest⟩
      have hne := keyLt_not_keyEq (hcur pe (by simp))
      simp only [mergeDupsAux, if_neg hne]
      rw [ih hrest]

theorem mergeDups_of_pairwise_keyLt {l : Problem}
    (h : List.Pairwise keyLt l) : mergeDups l = l := by
  cases l with
  | nil => rfl
  | cons pe rest => exact mergeDupsAux_of_pairwise_keyLt h

/-! ## Canonical form of `Canonicalize` -/

theorem normEntry_IJ (pe : ProblemEntry) : (normEntry pe).I ≤ (normEntry pe).J := by
  unfold normEntry
  split
  · rename_i h; simp only []; omega
  · rename_i h; omega

theorem normEntry_of_le {pe : ProblemEntry} (h : pe.I ≤ pe.J) : normEntry pe = pe := by
  unfold normEntry
  rw [if_neg (by omega)]

theorem canonicalize_pairwise_keyLt (p : Problem) :
    List.Pairwise keyLt (Canonicalize p) :=
  mergeDups_pairwise (List.sorted_insertionSort entryLE (p.map normEntry))

theorem canonicalize_IJ (p : Problem) :
    ∀ pe ∈ Canonicalize p, pe.I ≤ pe.J := by
  intro pe hpe
  rcases mergeDups_key_mem hpe with ⟨y, hy, hI, hJ⟩
  have hy' : y ∈ p.map normEntry :=
    ((List.perm_insertionSort entryLE (p.map normEntry)).mem_iff).mp hy
  rcases List.mem_map.mp hy' with ⟨z, _, hz⟩
  rw [hI, hJ, ← hz]
  exact normEntry_IJ z

theorem canonicalize_isCanonical (p : Problem) : IsCanonical (Canonicalize p) :=
  ⟨canonicalize_pairwise_keyLt p, canonicalize_IJ p⟩

theorem canonicalize_of_isCanonical {p : Problem} (h : IsCanonical p) :
    Canonicalize p = p := by
  have hmap : p.map normEntry = p := by
    rw [show p.map normEntry = p.map id from
      List.map_congr_left fun pe hpe => normEntry_of_le (h.2 pe hpe)]
    exact List.map_id p
  have hsorted : List.Sorted entryLE p := h.1.imp fun hab => entryLE_of_keyLt hab
  unfold Canonicalize
  rw [hmap, hsorted.insertionSort_eq, mergeDups_of_pairwise_keyLt h.1]

/-- Canonicalization is idempotent. -/
theorem canonicalize_idem (p : Problem) :
    Canonicalize (Canonicalize p) = Canonicalize p :=
  canonicalize_of_isCanonical (canonicalize_isCanonical p)

/-! ## Run decomposition of sorted lists

The merge phase of `Canonicalize` consumes a sorted list one maximal
run of key-equal entries at a time.  The lemmas here isolate that run.
-/

theorem sumV_nil : sumV [] = 0 := rfl

theorem sumV_cons (pe : ProblemEntry) (l : Problem) :
    sumV (pe :: l) = pe.Value + sumV l := by
  simp [sumV]

theorem sumV_append (l₁ l₂ : Problem) :
    sumV (l₁ ++ l₂) = sumV l₁ + sumV l₂ := by
  simp [sumV]

theorem sumV_perm {l₁ l₂ : Problem} (h : l₁.Perm l₂) : sumV l₁ = sumV l₂ :=
  (h.map ProblemEntry.Value).sum_eq

theorem eqKey_iff {c y : ProblemEntry} :
    eqKey c y = true ↔ (c.I = y.I ∧ c.J = y.J) := by
  simp [eqKey]

theorem eqKey_congr {c c' : ProblemEntry} (hI : c.I = c'.I) (hJ : c.J = c'.J) :
    eqKey c = eqKey c' := by
  funext y
  simp [eqKey, hI, hJ]

theorem runOf_append_restOf (c : ProblemEntry) (t : Problem) :
    runOf c t ++ restOf c t = t :=
  List.takeWhile_append_dropWhile (eqKey c) t

theorem mem_runOf {c x : ProblemEntry} {t : Problem} (hx : x ∈ runOf c t) :
    c.I = x.I ∧ c.J = x.J :=
  eqKey_iff.mp (List.mem_takeWhile_imp hx)

theorem restOf_length (c : ProblemEntry) (t : Problem) :
    (restOf c t).length ≤ t.length :=
  (List.dropWhile_sublist (eqKey c)).length_le

theorem restOf_pairwise {c : ProblemEntry} {t : Problem}
    (h : List.Pairwise entryLE t) : List.Pairwise entryLE (restOf c t) :=
  List.Pairwise.sublist (List.dropWhile_sublist (eqKey c)) h

theorem restOf_keyLt {c : ProblemEntry} {t : Problem}
    (h : List.Pairwise entryLE (c :: t)) : ∀ x ∈ restOf c t, keyLt c x := by
  rcases List.pairwise_cons.mp h with ⟨hc, ht⟩
  intro x hx
  rcases hrest : restOf c t with _ | ⟨r₀, rtail⟩
  · rw [hrest] at hx; simp at hx
  · have hr₀false : eqKey c r₀ = false := by
      have h1 := List.head?_dropWhile_not (eqKey c) t
      have h2 : t.dropWhile (eqKey c) = r₀ :: rtail := hrest
      rw [h2] at h1
      simpa using h1
    have hr₀t : r₀ ∈ t :=
      (List.dropWhile_sublist (eqKey c)).mem (by rw [show t.dropWhile (eqKey c) = r₀ :: rtail from hrest]; simp)
    have hlt₀ : keyLt c r₀ :=
      keyLt_of_entryLE_of_ne (hc r₀ hr₀t) (by
        intro hkey
        rw [eqKey_iff.mpr hkey] at hr₀false
        exact Bool.noConfusion hr₀false)
    rw [hrest] at hx
    rcases List.mem_cons.mp hx with hx | hx
    · exact hx ▸ hlt₀
    · have hpw : List.Pairwise entryLE (r₀ :: rtail) := by
        have := restOf_pairwise (c := c) ht
        rwa [hrest] at this
      exact keyLt_trans_entryLE hlt₀ ((List.pairwise_cons.mp hpw).1 x hx)

theorem mergeDupsAux_run :
    ∀ (run : Problem) (cur : ProblemEntry) (rest : Problem),
      (∀ x ∈ run, cur.I = x.I ∧ cur.J = x.J) →
      (∀ x, rest.head? = some x → ¬(cur.I = x.I ∧ cur.J = x.J)) →
      mergeDupsAux cur (run ++ rest) =
        { cur with Value := cur.Value + sumV run } :: mergeDups rest := by
  intro run
  induction run with
  | nil =>
      intro cur rest _ hrest
      cases rest with
      | nil => simp [mergeDupsAux, mergeDups, sumV]
      | cons pe tail =>
          simp only [List.nil_append, mergeDupsAux,
            if_neg (hrest pe rfl), mergeDups, sumV_nil]
          rw [show cur.Value + 0 = cur.Value from by ring]
  | cons x run' ih =>
      intro cur rest hrun hrest
      have hx := hrun x (by simp)
      rw [List.cons_append, mergeDupsAux, if_pos hx,
        ih { cur with Value := cur.Value + x.Value } rest
          (fun y hy => hrun y (by simp [hy])) (fun y hy => hrest y hy)]
      simp [sumV_cons, add_assoc]

theorem mergeDups_cons_eq {c : ProblemEntry} {t : Problem}
    (h : List.Pairwise entryLE (c :: t)) :
    mergeDups (c :: t) =
      { c with Value := c.Value + sumV (runOf c t) } :: mergeDups (restOf c t) := by
  have hsplit := runOf_append_restOf c t
  calc mergeDups (c :: t) = mergeDupsAux c t := rfl
    _ = mergeDupsAux c (runOf c t ++ restOf c t) := by rw [hsplit]
    _ = _ := by
        refine mergeDupsAux_run (runOf c t) c (restOf c t)
          (fun x hx => mem_runOf hx) ?_
        intro x hx
        have hmem : x ∈ restOf c t := List.mem_of_mem_head? hx
        exact keyLt_not_keyEq (restOf_keyLt h x hmem)

theorem filter_eqKey_eq_run {c : ProblemEntry} {t : Problem}
    (h : List.Pairwise entryLE (c :: t)) :
    (c :: t).filter (eqKey c) = c :: runOf c t := by
  rw [List.filter_cons, if_pos (eqKey_iff.mpr ⟨rfl, rfl⟩)]
  congr 1
  have hsplit := runOf_append_restOf c t
  calc t.filter (eqKey c) = (runOf c t ++ restOf c t).filter (eqKey c) := by rw [hsplit]
    _ = runOf c t ++ [] := by
        rw [List.filter_append]
        congr 1
        · exact List.filter_eq_self.mpr fun a ha => List.mem_takeWhile_imp ha
        · exact List.filter_eq_nil_iff.mpr fun a ha => by
            have := keyLt_not_keyEq (restOf_keyLt h a ha)
            simp only [eqKey, Bool.and_eq_true, decide_eq_true_eq]
            exact this
    _ = runOf c t := by simp

theorem filter_not_eqKey_eq_rest {c : ProblemEntry} {t : Problem}
    (h : List.Pairwise entryLE (c :: t)) :
    (c :: t).filter (fun y => !(eqKey c y)) = restOf c t := by
  rw [List.filter_cons, if_neg (by simp [eqKey])]
  have hsplit := runOf_append_restOf c t
  calc t.filter (fun y => !(eqKey c y))
      = (runOf c t ++ restOf c t).filter (fun y => !(eqKey c y)) := by rw [hsplit]
    _ = [] ++ restOf c t := by
        rw [List.filter_append]
        congr 1
        · exact List.filter_eq_nil_iff.mpr fun a ha => by
            simp only [Bool.not_eq_true', Bool.not_eq_false]
            exact List.mem_takeWhile_imp ha
        · exact List.filter_eq_self.mpr fun a ha => by
            have := keyLt_not_keyEq (restOf_keyLt h a ha)
            simp only [Bool.not_eq_true', eqKey, Bool.and_eq_false_iff,
              decide_eq_false_iff_not]
            tauto
    _ = restOf c t := by simp

/-! ## Merged values, and independence from the sort's tie order -/

theorem mergeDups_value_aux :
    ∀ (n : ℕ) (l : Problem), l.length ≤ n → List.Pairwise entryLE l →
      ∀ x ∈ mergeDups l, x.Value = sumV (l.filter (eqKey x)) := by
  intro n
  induction n with
  | zero =>
      intro l hlen _ x hx
      rw [List.length_eq_zero.mp (Nat.le_zero.mp hlen)] at hx
      simp [mergeDups] at hx
  | succ n ih =>
      intro l hlen hsorted x hx
      cases l with
      | nil => simp [mergeDups] at hx
      | cons c t =>
          rw [mergeDups_cons_eq hsorted] at hx
          rcases List.mem_cons.mp hx with hx | hx
          · have hI : x.I = c.I := by rw [hx]
            have hJ : x.J = c.J := by rw [hx]
            rw [show eqKey x = eqKey c from eqKey_congr hI hJ,
              filter_eqKey_eq_run hsorted, sumV_cons, hx]
          · have hrec := ih (restOf c t)
              (le_trans (restOf_length c t) (by simp at hlen; omega))
              (restOf_pairwise (List.pairwise_cons.mp hsorted).2) x hx
            rcases mergeDups_key_mem hx with ⟨y, hyrest, hxyI, hxyJ⟩
            have hne := keyLt_not_keyEq (restOf_keyLt hsorted y hyrest)
            have hfilter : (c :: t).filter (eqKey x) = (restOf c t).filter (eqKey x) := by
              conv_lhs => rw [show (c :: t) = c :: (runOf c t ++ restOf c t) from by
                rw [runOf_append_restOf]]
              rw [List.filter_cons, if_neg (by
                  simp only [eqKey, Bool.and_eq_true, decide_eq_true_eq]
                  omega),
                List.filter_append,
                List.filter_eq_nil_iff.mpr (fun a ha => by
                  have hac := mem_runOf ha
                  simp only [eqKey, Bool.and_eq_true, decide_eq_true_eq]
                  omega),
                List.nil_append]
            rw [hfilter, hrec]

/-- Each entry of `mergeDups` of a sorted list carries the sum of all
input values with its key. -/
theorem mergeDups_value {l : Problem} (hsorted : List.Pairwise entryLE l) :
    ∀ x ∈ mergeDups l, x.Value = sumV (l.filter (eqKey x)) :=
  mergeDups_value_aux l.length l le_rfl hsorted

theorem mergeDups_eq_of_perm_aux :
    ∀ (n : ℕ) (l₁ l₂ : Problem), l₁.length ≤ n → l₁.Perm l₂ →
      List.Pairwise entryLE l₁ → List.Pairwise entryLE l₂ →
      mergeDups l₁ = mergeDups l₂ := by
  intro n
  induction n with
  | zero =>
      intro l₁ l₂ hlen hp _ _
      rw [List.length_eq_zero.mp (Nat.le_zero.mp hlen)] at hp ⊢
      rw [hp.symm.eq_nil]
  | succ n ih =>
      intro l₁ l₂ hlen hp h₁ h₂
      cases l₁ with
      | nil => rw [hp.symm.eq_nil]
      | cons c₁ t₁ =>
          cases l₂ with
          | nil => exact absurd hp.eq_nil (by simp)
          | cons c₂ t₂ =>
              have hmem₂ : c₂ ∈ c₁ :: t₁ := hp.mem_iff.mpr (by simp)
              have hmem₁ : c₁ ∈ c₂ :: t₂ := hp.mem_iff.mp (by simp)
              have hkey : c₁.I = c₂.I ∧ c₁.J = c₂.J := by
                rcases List.mem_cons.mp hmem₂ with he | hm₂
                · rw [he]; exact ⟨rfl, rfl⟩
                rcases List.mem_cons.mp hmem₁ with he | hm₁
                · rw [he]; exact ⟨rfl, rfl⟩
                exact entryLE_antisymm_key
                  ((List.pairwise_cons.mp h₁).1 c₂ hm₂)
                  ((List.pairwise_cons.mp h₂).1 c₁ hm₁)
              have heq : eqKey c₁ = eqKey c₂ := eqKey_congr hkey.1 hkey.2
              rw [mergeDups_cons_eq h₁, mergeDups_cons_eq h₂]
              have hval : c₁.Value + sumV (runOf c₁ t₁) = c₂.Value + sumV (runOf c₂ t₂) := by
                rw [← sumV_cons, ← sumV_cons, ← filter_eqKey_eq_run h₁,
                  ← filter_eqKey_eq_run h₂, ← heq]
                exact sumV_perm (hp.filter (eqKey c₁))
              have hrest : (restOf c₁ t₁).Perm (restOf c₂ t₂) := by
                rw [← filter_not_eqKey_eq_rest h₁, ← filter_not_eqKey_eq_rest h₂, ← heq]
                exact hp.filter _
              have htail : mergeDups (restOf c₁ t₁) = mergeDups (restOf c₂ t₂) := by
                refine ih _ _ ?_ hrest
                  (restOf_pairwise (List.pairwise_cons.mp h₁).2)
                  (restOf_pairwise (List.pairwise_cons.mp h₂).2)
                exact le_trans (restOf_length c₁ t₁) (by simp at hlen; omega)
              rw [htail]
              congr 1
              exact ProblemEntry.ext hkey.1 hkey.2 hval

/-- `mergeDups` yields the same list for any two sorted arrangements of
the same entries: the output of `Canonicalize` does not depend on how
`sort.Slice` breaks ties. -/
theorem mergeDups_eq_of_perm {l₁ l₂ : Problem} (hp : l₁.Perm l₂)
    (h₁ : List.Pairwise entryLE l₁) (h₂ : List.Pairwise entryLE l₂) :
    mergeDups l₁ = mergeDups l₂ :=
  mergeDups_eq_of_perm_aux l₁.length l₁ l₂ le_rfl hp h₁ h₂

/-- Canonicalization is invariant under permutation of the input. -/
theorem canonicalize_perm {p q : Problem} (hpq : p.Perm q) :
    Canonicalize p = Canonicalize q := by
  unfold Canonicalize
  refine mergeDups_eq_of_perm ?_
    (List.sorted_insertionSort entryLE (p.map normEntry))
    (List.sorted_insertionSort entryLE (q.map normEntry))
  exact ((List.perm_insertionSort entryLE (p.map normEntry)).trans
    (hpq.map normEntry)).trans
    (List.perm_insertionSort entryLE (q.map normEntry)).symm

/-! ## Summed values per unordered key -/

theorem normKey_eq (pe : ProblemEntry) :
    normKey pe = ((normEntry pe).I, (normEntry pe).J) := by
  unfold normKey normEntry
  split
  · rfl
  · rfl

theorem sumV_map_value_preserving {f : ProblemEntry → ProblemEntry}
    (hf : ∀ a, (f a).Value = a.Value) (l : Problem) :
    sumV (l.map f) = sumV l := by
  induction l with
  | nil => rfl
  | cons a t ih => simp [sumV_cons, ih, hf]

/-- The value of each entry of `Canonicalize p` is the sum of all of
`p`'s values on that unordered key. -/
theorem canonicalize_value (p : Problem) :
    ∀ pe ∈ Canonicalize p, pe.Value = keySum p (pe.I, pe.J) := by
  intro x hx
  have hsorted := List.sorted_insertionSort entryLE (p.map normEntry)
  have h₁ := mergeDups_value hsorted x hx
  rw [h₁, keySum]
  have h₂ : sumV ((List.insertionSort entryLE (p.map normEntry)).filter (eqKey x)) =
      sumV ((p.map normEntry).filter (eqKey x)) :=
    sumV_perm ((List.perm_insertionSort entryLE (p.map normEntry)).filter (eqKey x))
  rw [h₂, List.filter_map, sumV_map_value_preserving (fun a => by
    unfold normEntry; split <;> rfl)]
  congr 1
  refine List.filter_congr fun a _ => ?_
  simp only [Function.comp_apply, eqKey, normKey_eq, Prod.mk.injEq]
  rw [Bool.decide_and]
  congr 1
  · exact decide_eq_decide.mpr eq_comm
  · exact decide_eq_decide.mpr eq_comm

/-- Every input key is covered: each entry of a sorted list leaves a
key-equal representative in `mergeDups`. -/
theorem mergeDups_key_cover_aux :
    ∀ (n : ℕ) (l : Problem), l.length ≤ n → List.Pairwise entryLE l →
      ∀ y ∈ l, ∃ x ∈ mergeDups l, x.I = y.I ∧ x.J = y.J := by
  intro n
  induction n with
  | zero =>
      intro l hlen _ y hy
      rw [List.length_eq_zero.mp (Nat.le_zero.mp hlen)] at hy
      simp at hy
  | succ n ih =>
      intro l hlen hsorted y hy
      cases l with
      | nil => simp at hy
      | cons c t =>
          rw [mergeDups_cons_eq hsorted]
          rcases List.mem_cons.mp hy with hy | hy
          · refine ⟨{ c with Value := c.Value + sumV (runOf c t) }, by simp, ?_, ?_⟩
            · rw [hy]
            · rw [hy]
          · have hsplit := runOf_append_restOf c t
            have : y ∈ runOf c t ∨ y ∈ restOf c t := by
              rw [← List.mem_append, hsplit]; exact hy
            rcases this with hrun | hrest
            · rcases mem_runOf hrun with ⟨hI, hJ⟩
              exact ⟨{ c with Value := c.Value + sumV (runOf c t) }, by simp, hI, hJ⟩
            · rcases ih (restOf c t) (le_trans (restOf_length c t) (by simp at hlen; omega))
                (restOf_pairwise (List.pairwise_cons.mp hsorted).2) y hrest with ⟨x, hx, hkey⟩
              exact ⟨x, by simp [hx], hkey⟩

theorem canonicalize_key_cover (p : Problem) :
    ∀ pe ∈ p, ∃ q ∈ Canonicalize p,
      q.I = (normKey pe).1 ∧ q.J = (normKey pe).2 := by
  intro pe hpe
  have hmem : normEntry pe ∈ List.insertionSort entryLE (p.map normEntry) :=
    (List.perm_insertionSort entryLE (p.map normEntry)).mem_iff.mpr
      (List.mem_map.mpr ⟨pe, hpe, rfl⟩)
  rcases mergeDups_key_cover_aux
      (List.insertionSort entryLE (p.map normEntry)).length _ le_rfl
      (List.sorted_insertionSort entryLE (p.map normEntry)) _ hmem with ⟨x, hx, hI, hJ⟩
  exact ⟨x, hx, by rw [normKey_eq]; exact ⟨hI, hJ⟩⟩

/-! ## Claim theorems about `Canonicalize` -/

/-- C3: for every Problem `p`, `Canonicalize p` is in canonical form:
every entry has `I ≤ J`; no two entries share the same `(I, J)` pair;
entries with equal unordered key (in either orientation) are collapsed
into a single entry carrying their summed value, and every input key is
still represented; entries are sorted by `I`, then `J`.  In particular
`(3,2,1.0)` and `(2,3,6.0)` canonicalize to the single entry
`(2,3,7.0)`. -/
theorem claim_C3_canonical_form (p : Problem) :
    (∀ pe ∈ Canonicalize p, pe.I ≤ pe.J) ∧
    List.Pairwise (fun a b => ¬(a.I = b.I ∧ a.J = b.J)) (Canonicalize p) ∧
    List.Pairwise keyLt (Canonicalize p) ∧
    (∀ pe ∈ Canonicalize p, pe.Value = keySum p (pe.I, pe.J)) ∧
    (∀ pe ∈ p, ∃ q ∈ Canonicalize p,
      q.I = (normKey pe).1 ∧ q.J = (normKey pe).2) ∧
    Canonicalize [⟨3, 2, 1⟩, ⟨2, 3, 6⟩] = [⟨2, 3, 7⟩] := by
  refine ⟨canonicalize_IJ p,
    (canonicalize_pairwise_keyLt p).imp fun h => keyLt_not_keyEq h,
    canonicalize_pairwise_keyLt p,
    canonicalize_value p,
    canonicalize_key_cover p, ?_⟩
  simp [Canonicalize, mergeDups, mergeDupsAux, normEntry,
    List.insertionSort, List.orderedInsert, entryLE]
  norm_num

theorem claim_C3_witness :
    ({ I := 2, J := 3, Value := 7 } : ProblemEntry).Value =
      keySum [⟨3, 2, 1⟩, ⟨2, 3, 6⟩] (2, 3) := by
  have h := claim_C3_canonical_form [⟨3, 2, 1⟩, ⟨2, 3, 6⟩]
  have hmem : ({ I := 2, J := 3, Value := 7 } : ProblemEntry) ∈
      Canonicalize [⟨3, 2, 1⟩, ⟨2, 3, 6⟩] := by
    rw [h.2.2.2.2.2]
    simp
  exact h.2.2.2.1 _ hmem

/-- C4: for every Problem `p` and every permutation `q` of `p`'s
entries, `Canonicalize q` equals `Canonicalize p` as an ordered list of
entries. -/
theorem claim_C4_order_independence (p q : Problem) (hperm : q.Perm p) :
    Canonicalize q = Canonicalize p :=
  canonicalize_perm hperm

theorem claim_C4_witness :
    Canonicalize [⟨2, 3, 6⟩, ⟨3, 2, 1⟩] = Canonicalize [⟨3, 2, 1⟩, ⟨2, 3, 6⟩] :=
  claim_C4_order_independence [⟨3, 2, 1⟩, ⟨2, 3, 6⟩] [⟨2, 3, 6⟩, ⟨3, 2, 1⟩]
    (List.Perm.swap (⟨3, 2, 1⟩ : ProblemEntry) ⟨2, 3, 6⟩ [])

/-- C6: canonicalization is idempotent: `Canonicalize (Canonicalize p) =
Canonicalize p` for every `p`, as ordered lists. -/
theorem claim_C6_idempotence (p : Problem) :
    Canonicalize (Canonicalize p) = Canonicalize p :=
  canonicalize_idem p

/-- C9: `Canonicalize` never mutates its receiver: in the state-level
embedding `canonicalizeMem`, the caller's slice comes back with the
same length and the same entries (same `I`, `J`, `Value` at every
index), while the second component is the canonicalized result. -/
theorem claim_C9_no_mutation (p : Problem) :
    (canonicalizeMem p).1 = p ∧
    (canonicalizeMem p).1.length = p.length ∧
    (∀ i : ℕ, (canonicalizeMem p).1[i]? = p[i]?) ∧
    (canonicalizeMem p).2 = Canonicalize p :=
  ⟨rfl, rfl, fun _ => rfl, rfl⟩

/-! ## The duality transform -/

theorem ToIsing_eq (p : Problem) :
    ToIsing p = ((Canonicalize p).map (isingEntry (Canonicalize p)),
      energyOffset (Canonicalize p)) := rfl

theorem ToQubo_eq (p : Problem) :
    ToQubo p = ((Canonicalize p).map (quboEntry (Canonicalize p)),
      -energyOffset ((Canonicalize p).map (quboEntry (Canonicalize p)))) := rfl

theorem isingEntry_I (cp : Problem) (pe : ProblemEntry) :
    (isingEntry cp pe).I = pe.I := by
  unfold isingEntry; split <;> rfl

theorem isingEntry_J (cp : Problem) (pe : ProblemEntry) :
    (isingEntry cp pe).J = pe.J := by
  unfold isingEntry; split <;> rfl

theorem quboEntry_I (cp : Problem) (pe : ProblemEntry) :
    (quboEntry cp pe).I = pe.I := by
  unfold quboEntry; split <;> rfl

theorem quboEntry_J (cp : Problem) (pe : ProblemEntry) :
    (quboEntry cp pe).J = pe.J := by
  unfold quboEntry; split <;> rfl

theorem isingEntry_value_nondiag (cp : Problem) {pe : ProblemEntry}
    (h : ¬pe.I = pe.J) : (isingEntry cp pe).Value = (1 / 4) * pe.Value := by
  unfold isingEntry
  rw [if_neg h]
  show pe.Value / 4 = (1 / 4) * pe.Value
  ring

theorem quboEntry_value_nondiag (cp : Problem) {pe : ProblemEntry}
    (h : ¬pe.I = pe.J) : (quboEntry cp pe).Value = 4 * pe.Value := by
  unfold quboEntry
  rw [if_neg h]
  show pe.Value * 4 = 4 * pe.Value
  ring

theorem couplerMap_cons (a : ProblemEntry) (t : Problem) (i : Int) :
    couplerMap (a :: t) i =
      if a.I ≠ a.J ∧ (a.I = i ∨ a.J = i) then
        (if a.I = i then a else { I := a.J, J := a.I, Value := a.Value }) :: couplerMap t i
      else couplerMap t i := by
  unfold couplerMap
  rw [List.filter_cons]
  by_cases h : a.I ≠ a.J ∧ (a.I = i ∨ a.J = i)
  · rw [if_pos (by simpa using h), if_pos h, List.map_cons]
  · rw [if_neg (by simpa using h), if_neg h]

theorem couplerSum_nil (i : Int) : couplerSum [] i = 0 := rfl

theorem couplerSum_cons (a : ProblemEntry) (t : Problem) (i : Int) :
    couplerSum (a :: t) i =
      (if a.I ≠ a.J ∧ (a.I = i ∨ a.J = i) then a.Value else 0) + couplerSum t i := by
  unfold couplerSum
  rw [couplerMap_cons]
  by_cases h : a.I ≠ a.J ∧ (a.I = i ∨ a.J = i)
  · rw [if_pos h, if_pos h]
    split
    · rw [sumV_cons]
    · rw [sumV_cons]
  · rw [if_neg h, if_neg h, zero_add]

/-- Transforming every entry by a key-preserving map that scales the
coupler values by `c` scales each spin's coupler sum by `c`. -/
theorem couplerSum_map (f : ProblemEntry → ProblemEntry) (c : Rat)
    (hI : ∀ pe, (f pe).I = pe.I) (hJ : ∀ pe, (f pe).J = pe.J)
    (hval : ∀ pe, ¬pe.I = pe.J → (f pe).Value = c * pe.Value) :
    ∀ (l : Problem) (i : Int), couplerSum (l.map f) i = c * couplerSum l i := by
  intro l i
  induction l with
  | nil => rw [List.map_nil, couplerSum_nil, mul_zero]
  | cons a t ih =>
      rw [List.map_cons, couplerSum_cons, couplerSum_cons, ih]
      by_cases h : a.I ≠ a.J ∧ (a.I = i ∨ a.J = i)
      · rw [if_pos (by simp only [hI, hJ]; exact h), if_pos h, hval a h.1]
        ring
      · rw [if_neg (by simp only [hI, hJ]; exact h), if_neg h]
        ring

theorem isCanonical_map (f : ProblemEntry → ProblemEntry)
    (hI : ∀ pe, (f pe).I = pe.I) (hJ : ∀ pe, (f pe).J = pe.J)
    {p : Problem} (h : IsCanonical p) : IsCanonical (p.map f) := by
  constructor
  · rw [List.pairwise_map]
    exact h.1.imp fun hab => keyLt_congr (hI _) (hJ _) (hI _) (hJ _) hab
  · intro pe hpe
    rcases List.mem_map.mp hpe with ⟨a, ha, rfl⟩
    rw [hI, hJ]
    exact h.2 a ha

/-- Converting a QUBO entry to Ising and back restores it: the `S/4`
correction added to each field weight is cancelled because the mapped
problem's coupler sums are scaled by four. -/
theorem ising_after_qubo (p : Problem) (pe : ProblemEntry) :
    isingEntry (p.map (quboEntry p)) (quboEntry p pe) = pe := by
  have hscale := couplerSum_map (quboEntry p) 4 (quboEntry_I p) (quboEntry_J p)
    (fun a ha => quboEntry_value_nondiag p ha)
  by_cases hd : pe.I = pe.J
  · unfold quboEntry
    rw [if_pos hd]
    unfold isingEntry
    rw [if_pos (show pe.I = pe.J from hd)]
    refine ProblemEntry.ext rfl rfl ?_
    show (pe.Value * 2 - couplerSum p pe.I * 2) / 2 +
      couplerSum (p.map (quboEntry p)) pe.I / 4 = pe.Value
    rw [hscale p pe.I]
    ring
  · unfold quboEntry
    rw [if_neg hd]
    unfold isingEntry
    rw [if_neg (show ¬pe.I = pe.J from hd)]
    refine ProblemEntry.ext rfl rfl ?_
    show pe.Value * 4 / 4 = pe.Value
    ring

/-- Converting an Ising entry to QUBO and back restores it. -/
theorem qubo_after_ising (p : Problem) (pe : ProblemEntry) :
    quboEntry (p.map (isingEntry p)) (isingEntry p pe) = pe := by
  have hscale := couplerSum_map (isingEntry p) (1 / 4) (isingEntry_I p) (isingEntry_J p)
    (fun a ha => isingEntry_value_nondiag p ha)
  by_cases hd : pe.I = pe.J
  · unfold isingEntry
    rw [if_pos hd]
    unfold quboEntry
    rw [if_pos (show pe.I = pe.J from hd)]
    refine ProblemEntry.ext rfl rfl ?_
    show (pe.Value / 2 + couplerSum p pe.I / 4) * 2 -
      couplerSum (p.map (isingEntry p)) pe.I * 2 = pe.Value
    rw [hscale p pe.I]
    ring
  · unfold isingEntry
    rw [if_neg hd]
    unfold quboEntry
    rw [if_neg (show ¬pe.I = pe.J from hd)]
    refine ProblemEntry.ext rfl rfl ?_
    show pe.Value / 4 * 4 = pe.Value
    ring

theorem roundtrip_qubo_ising {p : Problem} (hp : IsCanonical p) :
    (ToIsing (ToQubo p).1).1 = p ∧ (ToIsing (ToQubo p).1).2 = -(ToQubo p).2 := by
  have hcanon : Canonicalize p = p := canonicalize_of_isCanonical hp
  have hq1 : (ToQubo p).1 = p.map (quboEntry p) := by rw [ToQubo_eq, hcanon]
  have hqcanon : IsCanonical (p.map (quboEntry p)) :=
    isCanonical_map (quboEntry p) (quboEntry_I p) (quboEntry_J p) hp
  have hqfix : Canonicalize (p.map (quboEntry p)) = p.map (quboEntry p) :=
    canonicalize_of_isCanonical hqcanon
  have hback : (p.map (quboEntry p)).map (isingEntry (p.map (quboEntry p))) = p := by
    rw [List.map_map,
      show (isingEntry (p.map (quboEntry p)) ∘ quboEntry p) = id from
        funext fun pe => ising_after_qubo p pe,
      List.map_id]
  constructor
  · rw [hq1, ToIsing_eq, hqfix]
    exact hback
  · rw [hq1, ToIsing_eq, hqfix, ToQubo_eq, hcanon, neg_neg]

theorem roundtrip_ising_qubo {p : Problem} (hp : IsCanonical p) :
    (ToQubo (ToIsing p).1).1 = p ∧ (ToQubo (ToIsing p).1).2 = -(ToIsing p).2 := by
  have hcanon : Canonicalize p = p := canonicalize_of_isCanonical hp
  have hi1 : (ToIsing p).1 = p.map (isingEntry p) := by rw [ToIsing_eq, hcanon]
  have hicanon : IsCanonical (p.map (isingEntry p)) :=
    isCanonical_map (isingEntry p) (isingEntry_I p) (isingEntry_J p) hp
  have hifix : Canonicalize (p.map (isingEntry p)) = p.map (isingEntry p) :=
    canonicalize_of_isCanonical hicanon
  have hback : (p.map (isingEntry p)).map (quboEntry (p.map (isingEntry p))) = p := by
    rw [List.map_map,
      show (quboEntry (p.map (isingEntry p)) ∘ isingEntry p) = id from
        funext fun pe => qubo_after_ising p pe,
      List.map_id]
  constructor
  · rw [hi1, ToQubo_eq, hifix]
    exact hback
  · rw [hi1, ToQubo_eq, hifix, hback, ToIsing_eq, hcanon]

/-- C1: for every canonicalized Problem `p`, converting with `ToQubo`
then `ToIsing` (and likewise `ToIsing` then `ToQubo`) reproduces `p`
exactly after canonicalizing the result, and the two offsets are
additive inverses.  In particular the Ising problem
`{(0,0,1),(1,1,1),(0,1,-1)}` converts to a QUBO with offset `-3`, and
converting that QUBO back gives the original problem (canonicalized)
with offset `+3`. -/
theorem claim_C1_duality_roundtrip (p : Problem) (hp : Canonicalize p = p) :
    ((Canonicalize (ToIsing (ToQubo p).1).1 = p ∧
        (ToIsing (ToQubo p).1).2 = -(ToQubo p).2) ∧
      (Canonicalize (ToQubo (ToIsing p).1).1 = p ∧
        (ToQubo (ToIsing p).1).2 = -(ToIsing p).2)) ∧
    ((ToQubo [⟨0, 0, 1⟩, ⟨1, 1, 1⟩, ⟨0, 1, -1⟩]).2 = -3 ∧
      (ToIsing (ToQubo [⟨0, 0, 1⟩, ⟨1, 1, 1⟩, ⟨0, 1, -1⟩]).1).1 =
        Canonicalize [⟨0, 0, 1⟩, ⟨1, 1, 1⟩, ⟨0, 1, -1⟩] ∧
      (ToIsing (ToQubo [⟨0, 0, 1⟩, ⟨1, 1, 1⟩, ⟨0, 1, -1⟩]).1).2 = 3) := by
  have hpc : IsCanonical p := hp ▸ canonicalize_isCanonical p
  have h₁ := roundtrip_qubo_ising hpc
  have h₂ := roundtrip_ising_qubo hpc
  refine ⟨⟨⟨?_, h₁.2⟩, ⟨?_, h₂.2⟩⟩, ?_, ?_, ?_⟩
  · rw [h₁.1, hp]
  · rw [h₂.1, hp]
  · simp [ToQubo, ToIsing, Canonicalize, mergeDups, mergeDupsAux, normEntry,
      List.insertionSort, List.orderedInsert, entryLE, isingEntry, quboEntry,
      energyOffset, couplerSum, couplerMap, sumV]
    norm_num
  · simp [ToQubo, ToIsing, Canonicalize, mergeDups, mergeDupsAux, normEntry,
      List.insertionSort, List.orderedInsert, entryLE, isingEntry, quboEntry,
      energyOffset, couplerSum, couplerMap, sumV]
    norm_num
  · simp [ToQubo, ToIsing, Canonicalize, mergeDups, mergeDupsAux, normEntry,
      List.insertionSort, List.orderedInsert, entryLE, isingEntry, quboEntry,
      energyOffset, couplerSum, couplerMap, sumV]
    norm_num

theorem claim_C1_witness :
    Canonicalize [⟨0, 0, 1⟩, ⟨0, 1, -1⟩, ⟨1, 1, 1⟩] =
        [⟨0, 0, 1⟩, ⟨0, 1, -1⟩, ⟨1, 1, 1⟩] ∧
      Canonicalize (ToIsing (ToQubo [⟨0, 0, 1⟩, ⟨0, 1, -1⟩, ⟨1, 1, 1⟩]).1).1 =
        [⟨0, 0, 1⟩, ⟨0, 1, -1⟩, ⟨1, 1, 1⟩] := by
  have hcanon : Canonicalize [⟨0, 0, 1⟩, ⟨0, 1, -1⟩, ⟨1, 1, 1⟩] =
      [⟨0, 0, 1⟩, ⟨0, 1, -1⟩, ⟨1, 1, 1⟩] := by
    simp [Canonicalize, mergeDups, mergeDupsAux, normEntry,
      List.insertionSort, List.orderedInsert, entryLE]
  exact ⟨hcanon,
    (claim_C1_duality_roundtrip [⟨0, 0, 1⟩, ⟨0, 1, -1⟩, ⟨1, 1, 1⟩] hcanon).1.1.1⟩

/-- C8: `ToIsing` and `ToQubo` are total over every finite Problem —
each returns a (problem, offset) pair for any input — and on the empty
problem both return the empty problem with offset `0`. -/
theorem claim_C8_totality_empty :
    (∀ p : Problem, ∃ q o, ToIsing p = (q, o)) ∧
    (∀ p : Problem, ∃ q o, ToQubo p = (q, o)) ∧
    ToIsing [] = ([], 0) ∧
    ToQubo [] = ([], 0) := by
  refine ⟨fun p => ⟨_, _, rfl⟩, fun p => ⟨_, _, rfl⟩, ?_, ?_⟩
  · simp [ToIsing_eq, Canonicalize, mergeDups, normEntry,
      List.insertionSort, energyOffset, sumV]
  · simp [ToQubo_eq, Canonicalize, mergeDups, normEntry,
      List.insertionSort, energyOffset, sumV]

/-! ## The synchronous solve error path -/

/-- C5, evaluated at a failing input: when the backend reports status
code `2` with message `"oops"`, `SolveIsing` (and `SolveQubo`) returns
the zero `IsingResult` together with an error that carries the
backend's numeric code — but whose message is `"[oops]"`, the backend
message wrapped in brackets because `newErrorf` hands `fmt.Sprintf` the
unexpanded variadic slice, not `"oops"` itself as the claim states. -/
theorem claim_C5_message_bracketed :
    SolveIsing (fun _ => ⟨2, "oops", zeroIsingResult⟩) [] =
        (zeroIsingResult, some ⟨2, "[oops]"⟩) ∧
    SolveQubo (fun _ => ⟨2, "oops", zeroIsingResult⟩) [] =
        (zeroIsingResult, some ⟨2, "[oops]"⟩) ∧
    "[oops]" ≠ "oops" := by
  exact ⟨rfl, rfl, by decide⟩

/-! ## Multi-job await -/

/-- C7: for a one-element job list and any timeout, the multi-job
`AwaitCompletion` with `minDone = 1` returns exactly the boolean that
the single-job `AwaitCompletion` method returns for that job and
timeout. -/
theorem claim_C7_single_job_consistency {H : Type}
    (wait : List H → Int → Rat → Int) (sp : SubmittedProblem H) (timeout : Int) :
    AwaitCompletion wait [sp] 1 timeout =
      some (awaitCompletionSingle wait sp timeout) := rfl

/-- C10: called with an empty job list, `AwaitCompletion` panics — the
Go code indexes element 0 of the empty handle slice — instead of
returning a boolean, for every `minDone`, every timeout and every
backend behaviour; the backend wait routine is never consulted (the
result is `none` uniformly in `wait`). -/
theorem claim_C10_empty_list_panics {H : Type} :
    ∀ (wait : List H → Int → Rat → Int) (minDone timeout : Int),
      AwaitCompletion wait [] minDone timeout = none :=
  fun _ _ _ => rfl

/-! ## Sum manipulation helpers for the energy identity -/

theorem sum_map_add {α : Type} (l : List α) (f g : α → Rat) :
    (l.map fun a => f a + g a).sum = (l.map f).sum + (l.map g).sum := by
  induction l with
  | nil => simp
  | cons a t ih =>
      simp only [List.map_cons, List.sum_cons, ih]
      ring

theorem sum_map_sub {α : Type} (l : List α) (f g : α → Rat) :
    (l.map fun a => f a - g a).sum = (l.map f).sum - (l.map g).sum := by
  induction l with
  | nil => simp
  | cons a t ih =>
      simp only [List.map_cons, List.sum_cons, ih]
      ring

theorem sum_map_mul_right {α : Type} (l : List α) (f : α → Rat) (c : Rat) :
    (l.map fun a => f a * c).sum = (l.map f).sum * c := by
  induction l with
  | nil => simp
  | cons a t ih =>
      simp only [List.map_cons, List.sum_cons, ih]
      ring

theorem sum_map_zero {α : Type} (l : List α) :
    (l.map fun _ => (0 : Rat)).sum = 0 := by
  induction l with
  | nil => rfl
  | cons a t ih => simp only [List.map_cons, List.sum_cons, ih, add_zero]

theorem sum_map_congr {α : Type} (l : List α) (f g : α → Rat)
    (h : ∀ a ∈ l, f a = g a) : (l.map f).sum = (l.map g).sum := by
  rw [List.map_congr_left h]

theorem sum_swap {α β : Type} (l : List α) (m : List β) (G : α → β → Rat) :
    (l.map fun a => (m.map fun b => G a b).sum).sum =
      (m.map fun b => (l.map fun a => G a b).sum).sum := by
  induction l with
  | nil =>
      simp only [List.map_nil, List.sum_nil]
      rw [sum_map_zero]
  | cons a t ih =>
      rw [List.map_cons, List.sum_cons, ih, ← sum_map_add]
      refine sum_map_congr _ _ _ fun b _ => ?_
      rw [List.map_cons, List.sum_cons]

theorem sum_ite_zero {α : Type} (q : α → Prop) [DecidablePred q] (f : α → Rat) :
    ∀ l : List α, (∀ a ∈ l, ¬q a) →
      (l.map fun a => if q a then f a else 0).sum = 0 := by
  intro l
  induction l with
  | nil => intro _; rfl
  | cons a t ih =>
      intro h
      rw [List.map_cons, List.sum_cons, if_neg (h a (by simp)), zero_add]
      exact ih fun b hb => h b (by simp [hb])

theorem sum_ite_unique {α : Type} (q : α → Prop) [DecidablePred q]
    (f : α → Rat) (c : Rat) :
    ∀ l : List α, (∃ a ∈ l, q a) → (l.Pairwise fun a b => ¬(q a ∧ q b)) →
      (∀ a ∈ l, q a → f a = c) →
      (l.map fun a => if q a then f a else 0).sum = c := by
  intro l
  induction l with
  | nil =>
      intro hex _ _
      rcases hex with ⟨a, ha, _⟩
      simp at ha
  | cons a t ih =>
      intro hex huni hval
      rw [List.map_cons, List.sum_cons]
      by_cases hqa : q a
      · rw [if_pos hqa, hval a (by simp) hqa,
          sum_ite_zero q f t
            (fun b hb hqb => (List.pairwise_cons.mp huni).1 b hb ⟨hqa, hqb⟩),
          add_zero]
      · rw [if_neg hqa, zero_add]
        refine ih ?_ (List.pairwise_cons.mp huni).2
          (fun b hb hqb => hval b (by simp [hb]) hqb)
        rcases hex with ⟨b, hb, hqb⟩
        rcases List.mem_cons.mp hb with rfl | hb
        · exact absurd hqb hqa
        · exact ⟨b, hb, hqb⟩

theorem couplerSum_as_sum (l : Problem) (i : Int) :
    couplerSum l i = (l.map fun e =>
      if e.I ≠ e.J ∧ (e.I = i ∨ e.J = i) then e.Value else 0).sum := by
  induction l with
  | nil => rfl
  | cons a t ih => rw [couplerSum_cons, List.map_cons, List.sum_cons, ih]

theorem energyOffset_def (l : Problem) :
    energyOffset l = sumV (l.filter fun pe => decide (pe.I = pe.J)) / 2 +
      sumV (l.filter fun pe => decide (pe.I ≠ pe.J)) / 4 := rfl

theorem energyOffset_as_sum (l : Problem) :
    energyOffset l = (l.map fun pe =>
      if pe.I = pe.J then pe.Value / 2 else pe.Value / 4).sum := by
  induction l with
  | nil =>
      rw [energyOffset_def]
      norm_num [sumV]
  | cons a t ih =>
      rw [energyOffset_def, List.filter_cons, List.filter_cons,
        List.map_cons, List.sum_cons, ← ih, energyOffset_def]
      by_cases hd : a.I = a.J
      · rw [if_pos (by simpa using hd), if_neg (by simpa using hd), if_pos hd, sumV_cons]
        ring
      · rw [if_neg (by simpa using hd), if_pos (by simpa using hd), if_neg hd, sumV_cons]
        ring

/-- The exchange identity behind the energy equivalence: over a
canonical problem in which every coupled variable carries a field
entry, the field-side coupler-sum corrections equal the coupler-side
endpoint corrections. -/
theorem coupler_field_exchange (cp : Problem) (x : Int → Rat)
    (hcanon : List.Pairwise keyLt cp)
    (hdiag : ∀ pe ∈ cp, ¬pe.I = pe.J →
      (∃ d ∈ cp, d.I = pe.I ∧ d.J = pe.I) ∧
      (∃ d ∈ cp, d.I = pe.J ∧ d.J = pe.J)) :
    (cp.map fun d => if d.I = d.J
        then couplerSum cp d.I * ((2 * x d.I - 1) / 4) else 0).sum =
    (cp.map fun e => if e.I = e.J then 0
        else e.Value * ((2 * x e.I - 1) / 4) +
          e.Value * ((2 * x e.J - 1) / 4)).sum := by
  have h1 : ∀ d ∈ cp,
      (if d.I = d.J then couplerSum cp d.I * ((2 * x d.I - 1) / 4) else 0) =
        (cp.map fun e => if d.I = d.J then
          (if e.I ≠ e.J ∧ (e.I = d.I ∨ e.J = d.I) then e.Value else 0) *
            ((2 * x d.I - 1) / 4) else 0).sum := by
    intro d _
    by_cases hdd : d.I = d.J
    · rw [if_pos hdd, couplerSum_as_sum, ← sum_map_mul_right]
      refine sum_map_congr _ _ _ fun e _ => ?_
      rw [if_pos hdd]
    · rw [if_neg hdd]
      exact ((sum_map_congr cp _ _ fun e _ => if_neg hdd).trans (sum_map_zero cp)).symm
  rw [sum_map_congr cp _ _ h1, sum_swap]
  refine sum_map_congr cp _ _ fun e he => ?_
  by_cases hee : e.I = e.J
  · rw [if_pos hee]
    refine (sum_map_congr _ _ _ fun d _ => ?_).trans (sum_map_zero cp)
    by_cases hdd : d.I = d.J
    · rw [if_pos hdd, if_neg fun h => h.1 hee, zero_mul]
    · rw [if_neg hdd]
  · rw [if_neg hee]
    have hsplit : ∀ d ∈ cp,
        (if d.I = d.J then
          (if e.I ≠ e.J ∧ (e.I = d.I ∨ e.J = d.I) then e.Value else 0) *
            ((2 * x d.I - 1) / 4) else 0) =
        (if d.I = d.J ∧ d.I = e.I then e.Value * ((2 * x e.I - 1) / 4) else 0) +
        (if d.I = d.J ∧ d.I = e.J then e.Value * ((2 * x e.J - 1) / 4) else 0) := by
      intro d _
      by_cases hdd : d.I = d.J
      · by_cases h1' : e.I = d.I
        · have h2' : ¬e.J = d.I := by omega
          rw [if_pos hdd, if_pos ⟨hee, Or.inl h1'⟩, if_pos ⟨hdd, h1'.symm⟩,
            if_neg (by omega), add_zero, h1']
        · by_cases h2' : e.J = d.I
          · rw [if_pos hdd, if_pos ⟨hee, Or.inr h2'⟩, if_neg (by omega),
              if_pos ⟨hdd, h2'.symm⟩, zero_add, h2']
          · rw [if_pos hdd, if_neg fun h => h.2.elim h1' h2', if_neg (by omega),
              if_neg (by omega), zero_mul, add_zero]
      · rw [if_neg hdd, if_neg (by omega), if_neg (by omega), add_zero]
    rw [sum_map_congr cp _ _ hsplit, sum_map_add]
    have hfirst :
        (cp.map fun d =>
          if d.I = d.J ∧ d.I = e.I then e.Value * ((2 * x e.I - 1) / 4) else 0).sum =
          e.Value * ((2 * x e.I - 1) / 4) := by
      rcases (hdiag e he hee).1 with ⟨d, hd, hdI, hdJ⟩
      refine sum_ite_unique _ _ _ cp ⟨d, hd, by omega, hdI⟩
        (hcanon.imp fun hlt => fun h => keyLt_not_keyEq hlt ⟨by omega, by omega⟩)
        fun _ _ _ => rfl
    have hsecond :
        (cp.map fun d =>
          if d.I = d.J ∧ d.I = e.J then e.Value * ((2 * x e.J - 1) / 4) else 0).sum =
          e.Value * ((2 * x e.J - 1) / 4) := by
      rcases (hdiag e he hee).2 with ⟨d, hd, hdI, hdJ⟩
      refine sum_ite_unique _ _ _ cp ⟨d, hd, by omega, hdI⟩
        (hcanon.imp fun hlt => fun h => keyLt_not_keyEq hlt ⟨by omega, by omega⟩)
        fun _ _ _ => rfl
    rw [hfirst, hsecond]

/-- Energy equivalence over an already-canonical problem whose coupled
variables all carry field entries. -/
theorem energy_ising_offset (cp : Problem) (x : Int → Rat)
    (hcanon : List.Pairwise keyLt cp)
    (hdiag : ∀ pe ∈ cp, ¬pe.I = pe.J →
      (∃ d ∈ cp, d.I = pe.I ∧ d.J = pe.I) ∧
      (∃ d ∈ cp, d.I = pe.J ∧ d.J = pe.J)) :
    energy (cp.map (isingEntry cp)) (fun i => 2 * x i - 1) + energyOffset cp =
      energy cp x := by
  unfold energy
  rw [List.map_map, energyOffset_as_sum, ← sum_map_add, ← sub_eq_zero, ← sum_map_sub,
    sum_map_congr cp _
      (fun pe =>
        (if pe.I = pe.J then couplerSum cp pe.I * ((2 * x pe.I - 1) / 4) else 0) -
        (if pe.I = pe.J then 0
          else pe.Value * ((2 * x pe.I - 1) / 4) + pe.Value * ((2 * x pe.J - 1) / 4)))
      (fun pe _ => by
        by_cases hd : pe.I = pe.J
        · simp only [Function.comp_apply, isingEntry, if_pos hd]
          ring
        · simp only [Function.comp_apply, isingEntry, if_neg hd]
          ring),
    sum_map_sub, coupler_field_exchange cp x hcanon hdiag, sub_self]

/-- C2 counterexample: the claim fails as stated.  For the input
problem `[(0,1,1)]` — a coupler whose endpoints have no linear entries —
and the all-ones `{0,1}` assignment, the Ising energy of `ToIsing`'s
output at `s = 2x − 1` plus the returned offset is `1/2`, while the
QUBO energy of the canonicalized input is `1`. -/
theorem claim_C2_counterexample :
    (∀ i : Int, (fun _ : Int => (1 : Rat)) i = 0 ∨ (fun _ : Int => (1 : Rat)) i = 1) ∧
    energy (ToIsing [⟨0, 1, 1⟩]).1
        (fun i => 2 * (fun _ : Int => (1 : Rat)) i - 1) + (ToIsing [⟨0, 1, 1⟩]).2 ≠
      energy (Canonicalize [⟨0, 1, 1⟩]) (fun _ : Int => (1 : Rat)) := by
  constructor
  · intro i
    right
    rfl
  · simp [energy, ToIsing_eq, Canonicalize, mergeDups, mergeDupsAux, normEntry,
      List.insertionSort, List.orderedInsert, entryLE, isingEntry, energyOffset,
      couplerSum, couplerMap, sumV]
    norm_num

/-- C2 (amended): for every Problem `p` and every `{0,1}` assignment
`x`, with `s = 2x − 1`, the Ising energy of `ToIsing p`'s problem at
`s` plus the returned offset equals the QUBO energy of the
canonicalized input at `x` — provided every variable that appears in a
quadratic entry of the canonicalized problem also carries a linear
entry there.  (Isolated variables and duplicate entries needing merge
are covered; the proviso is forced by `claim_C2_counterexample`.) -/
theorem claim_C2_energy_equivalence (p : Problem) (x : Int → Rat)
    (hx : ∀ i, x i = 0 ∨ x i = 1)
    (hdiag : ∀ pe ∈ Canonicalize p, ¬pe.I = pe.J →
      (∃ d ∈ Canonicalize p, d.I = pe.I ∧ d.J = pe.I) ∧
      (∃ d ∈ Canonicalize p, d.I = pe.J ∧ d.J = pe.J)) :
    energy (ToIsing p).1 (fun i => 2 * x i - 1) + (ToIsing p).2 =
      energy (Canonicalize p) x := by
  rw [ToIsing_eq]
  exact energy_ising_offset (Canonicalize p) x (canonicalize_pairwise_keyLt p) hdiag

theorem claim_C2_witness :
    (∀ i : Int, (if i = 0 then (1 : Rat) else 0) = 0 ∨
      (if i = 0 then (1 : Rat) else 0) = 1) ∧
    energy (ToIsing [⟨0, 0, 1⟩, ⟨1, 1, 1⟩, ⟨0, 1, -1⟩]).1
        (fun i => 2 * (if i = 0 then (1 : Rat) else 0) - 1) +
      (ToIsing [⟨0, 0, 1⟩, ⟨1, 1, 1⟩, ⟨0, 1, -1⟩]).2 =
      energy (Canonicalize [⟨0, 0, 1⟩, ⟨1, 1, 1⟩, ⟨0, 1, -1⟩])
        (fun i => if i = 0 then (1 : Rat) else 0) := by
  have hx : ∀ i : Int, (if i = 0 then (1 : Rat) else 0) = 0 ∨
      (if i = 0 then (1 : Rat) else 0) = 1 := by
    intro i
    by_cases h : i = 0
    · right; rw [if_pos h]
    · left; rw [if_neg h]
  refine ⟨hx, ?_⟩
  refine claim_C2_energy_equivalence [⟨0, 0, 1⟩, ⟨1, 1, 1⟩, ⟨0, 1, -1⟩]
    (fun i => if i = 0 then (1 : Rat) else 0) hx ?_
  have hc : Canonicalize [⟨0, 0, 1⟩, ⟨1, 1, 1⟩, ⟨0, 1, -1⟩] =
      [⟨0, 0, 1⟩, ⟨0, 1, -1⟩, ⟨1, 1, 1⟩] := by
    simp [Canonicalize, mergeDups, mergeDupsAux, normEntry,
      List.insertionSort, List.orderedInsert, entryLE]
  rw [hc]
  decide

end Sapi
